import Mathlib

/-!
Verification of the file-finder indexing and content-search engine.

The Go sources are embedded shallowly: strings are modelled as `List Char`
(Go iterates `[]rune`), byte buffers as `List Nat`, Go maps as functions to
`Option` or association lists, and the mutable index as explicit state.
Every definition is transcribed from the corresponding Go function, named
after it where Lean allows.
-/

namespace FileFinder

/-- `strings.ToLower`, restricted to the ASCII range that all theorems below
exercise (Go folds full Unicode; `Char.toLower` folds ASCII). -/
def goToLower (s : List Char) : List Char := s.map Char.toLower

/-- `strings.Contains(hay, sub)`: some offset of `hay` starts with `sub`. -/
def strContains (hay sub : List Char) : Bool :=
  (List.range (hay.length + 1)).any fun i => sub.isPrefixOf (hay.drop i)

/-- `BoyerMoore.buildBadCharTable` (permission_finder.go:75-83): iterate the
pattern runes left to right and record `patternLen - i - 1` for the rune at
index `i`; a later occurrence overwrites an earlier one, exactly as
successive Go map writes do.  The map is modelled as `Char → Option Nat`. -/
def buildBadCharTable (pat : List Char) : Char → Option Nat :=
  pat.enum.foldl
    (fun t p => fun c => if c = p.2 then some (pat.length - p.1 - 1) else t c)
    (fun _ => none)

/-- `BoyerMoore.getBadCharShift` (permission_finder.go:130-135): table hit,
else the full pattern length. -/
def getBadCharShift (pat : List Char) (c : Char) : Nat :=
  (buildBadCharTable pat c).getD pat.length

/-- The right-to-left comparison loop inside `BoyerMoore.Search`
(permission_finder.go:110-113): scanning `d = 0, 1, ...` (the Go loop's
`j = patternLen-1-d`, `k = i-d`), return the first offset `d` whose text
rune differs from the pattern rune, `none` when all `patternLen` positions
agree.  Callers guarantee `patternLen - 1 ≤ i < textLen`, so the `getD`
defaults are never consulted. -/
def findMismatch (text pat : List Char) (i : Nat) : Option Nat :=
  (List.range pat.length).find? fun d =>
    text.getD (i - d) ' ' ≠ pat.getD (pat.length - 1 - d) ' '

/-- The outer scan loop of `BoyerMoore.Search` (permission_finder.go:105-124).
On a full match record `k + 1 = i + 1 - patternLen` and advance by the
pattern length; on a mismatch at text index `k = i - d` advance by
`max 1 (badCharShift text[k])`.  `hp` reflects the `patternLen == 0` guard
that precedes the loop in the source. -/
def bmLoop (text pat : List Char) (hp : 0 < pat.length) (i : Nat) : List Nat :=
  if h : i < text.length then
    match findMismatch text pat i with
    | none => (i + 1 - pat.length) :: bmLoop text pat hp (i + pat.length)
    | some d =>
        bmLoop text pat hp (i + max 1 (getBadCharShift pat (text.getD (i - d) ' ')))
  else []
  termination_by text.length - i
  decreasing_by
    · omega
    · have : 1 ≤ max 1 (getBadCharShift pat (text.getD (i - d) ' ')) :=
        le_max_left _ _
      omega

/-- `BoyerMoore.Search` (permission_finder.go:86-127), including the
construction-time lower-casing done by `NewBoyerMoore` when the matcher is
case-insensitive. -/
def bmSearch (pat0 : List Char) (caseSensitive : Bool) (text0 : List Char) : List Nat :=
  let pat := if caseSensitive then pat0 else goToLower pat0
  let text := if caseSensitive then text0 else goToLower text0
  if h : pat.length = 0 ∨ text.length < pat.length then []
  else bmLoop text pat (by omega) (pat.length - 1)

/-- Fuel-indexed copy of `bmLoop`, used only to evaluate the search on
concrete inputs (well-founded recursion does not reduce inside the kernel). -/
def bmLoopF (text pat : List Char) : Nat → Nat → List Nat
  | 0, _ => []
  | fuel + 1, i =>
    if i < text.length then
      match findMismatch text pat i with
      | none => (i + 1 - pat.length) :: bmLoopF text pat fuel (i + pat.length)
      | some d =>
          bmLoopF text pat fuel (i + max 1 (getBadCharShift pat (text.getD (i - d) ' ')))
    else []

theorem bmLoopF_eq (text pat : List Char) (hp : 0 < pat.length) :
    ∀ fuel i, text.length ≤ fuel + i →
      bmLoopF text pat fuel i = bmLoop text pat hp i := by
  intro fuel
  induction fuel with
  | zero =>
      intro i hi
      rw [bmLoop]
      simp only [bmLoopF]
      rw [dif_neg (by omega)]
  | succ fuel ih =>
      intro i hi
      rw [bmLoop]
      by_cases h : i < text.length
      · rw [dif_pos h]
        simp only [bmLoopF, if_pos h]
        cases hm : findMismatch text pat i with
        | none =>
            exact congrArg _ (ih (i + pat.length) (by omega))
        | some d =>
            exact ih (i + max 1 (getBadCharShift pat (text.getD (i - d) ' ')))
              (by have : 1 ≤ max 1 (getBadCharShift pat (text.getD (i - d) ' ')) :=
                    le_max_left _ _
                  omega)
      · rw [dif_neg h]
        simp only [bmLoopF, if_neg h]

/-- Executable form of `bmSearch`, provably equal to it. -/
def bmSearchF (pat0 : List Char) (caseSensitive : Bool) (text0 : List Char) : List Nat :=
  let pat := if caseSensitive then pat0 else goToLower pat0
  let text := if caseSensitive then text0 else goToLower text0
  if pat.length = 0 ∨ text.length < pat.length then []
  else bmLoopF text pat text.length (pat.length - 1)

theorem bmSearchF_eq (pat0 : List Char) (cs : Bool) (text0 : List Char) :
    bmSearchF pat0 cs text0 = bmSearch pat0 cs text0 := by
  unfold bmSearchF bmSearch
  by_cases h : (if cs then pat0 else goToLower pat0).length = 0 ∨
      (if cs then text0 else goToLower text0).length <
        (if cs then pat0 else goToLower pat0).length
  · simp only [h, dif_pos, if_pos]
  · simp only [h, dif_neg, if_neg, not_false_eq_true]
    exact bmLoopF_eq _ _ (by omega) _ _ (by omega)

/-- The reference oracle of the claim: a naive left-to-right scan recording
non-overlapping occurrences of the pattern.  Written from the spec's words,
not from the Go code, for the refinement comparison. -/
def naiveLoop (text pat : List Char) (hp : 0 < pat.length) (p : Nat) : List Nat :=
  if h : p + pat.length ≤ text.length then
    if pat.isPrefixOf (text.drop p) then p :: naiveLoop text pat hp (p + pat.length)
    else naiveLoop text pat hp (p + 1)
  else []
  termination_by text.length + 1 - p
  decreasing_by
    · omega
    · omega

/-- Naive non-overlapping substring scan, starting at offset 0. -/
def naiveSearch (pat text : List Char) (hp : 0 < pat.length) : List Nat :=
  naiveLoop text pat hp 0

/-- Fuel-indexed copy of `naiveLoop` for concrete evaluation. -/
def naiveLoopF (text pat : List Char) : Nat → Nat → List Nat
  | 0, _ => []
  | fuel + 1, p =>
    if p + pat.length ≤ text.length then
      if pat.isPrefixOf (text.drop p) then p :: naiveLoopF text pat fuel (p + pat.length)
      else naiveLoopF text pat fuel (p + 1)
    else []

theorem naiveLoopF_eq (text pat : List Char) (hp : 0 < pat.length) :
    ∀ fuel p, text.length + 1 ≤ fuel + p →
      naiveLoopF text pat fuel p = naiveLoop text pat hp p := by
  intro fuel
  induction fuel with
  | zero =>
      intro p hp'
      rw [naiveLoop]
      simp only [naiveLoopF]
      rw [dif_neg (by omega)]
  | succ fuel ih =>
      intro p hp'
      rw [naiveLoop]
      by_cases h : p + pat.length ≤ text.length
      · rw [dif_pos h]
        simp only [naiveLoopF, if_pos h]
        by_cases hpre : pat.isPrefixOf (text.drop p)
        · rw [if_pos hpre, if_pos hpre, ih (p + pat.length) (by omega)]
        · rw [if_neg hpre, if_neg hpre, ih (p + 1) (by omega)]
      · rw [dif_neg h]
        simp only [naiveLoopF, if_neg h]

theorem naiveSearch_eval (pat text : List Char) (hp : 0 < pat.length) :
    naiveSearch pat text hp = naiveLoopF text pat (text.length + 1) 0 := by
  unfold naiveSearch
  rw [naiveLoopF_eq text pat hp (text.length + 1) 0 (by omega)]

/-- C1: `BoyerMoore.Search` is NOT equivalent to the naive non-overlapping
scan.  With pattern `"abb"` and text `"aabb"` the scanner aligns the pattern
end at index 2, matches `b`, mismatches `a` against `b` at text index 1,
looks up the bad-character table at `a` (distance 2 from the pattern end)
and jumps the cursor to 4 — past the genuine occurrence at offset 1 — so it
returns no matches, while the oracle returns `[1]`. -/
theorem c1_search_misses_match :
    bmSearch "abb".toList true "aabb".toList = [] ∧
      naiveSearch "abb".toList "aabb".toList (by decide) = [1] := by
  constructor
  · rw [← bmSearchF_eq]
    decide
  · rw [naiveSearch_eval]
    decide

/-! ### C8: the matcher's algorithm steps -/

/-- The fold over `enumFrom`, with the value formula exposed: the lookup at
`c` is determined by the rightmost occurrence of `c` in the enumerated
segment (later Go map writes overwrite earlier ones). -/
theorem tableAux (m : Nat) (l : List Char) :
    ∀ (n : Nat) (init : Char → Option Nat) (c : Char),
      ((List.enumFrom n l).foldl
          (fun t p => fun x => if x = p.2 then some (m - p.1 - 1) else t x) init) c =
        if c ∈ l then some (m - (n + (l.length - 1 - List.indexOf c l.reverse)) - 1)
        else init c := by
  induction l with
  | nil => intro n init c; simp [List.enumFrom]
  | cons ch l' ih =>
      intro n init c
      simp only [List.enumFrom, List.foldl_cons]
      rw [ih (n + 1)]
      by_cases hc : c ∈ l'
      · have hrev : c ∈ l'.reverse := List.mem_reverse.mpr hc
        have hidx : List.indexOf c l'.reverse < l'.length := by
          have := List.indexOf_lt_length.mpr hrev
          simpa using this
        rw [if_pos hc, if_pos (List.mem_cons_of_mem ch hc)]
        rw [List.reverse_cons, List.indexOf_append_of_mem hrev]
        have hlc : (ch :: l').length = l'.length + 1 := by simp
        rw [hlc]
        congr 1
        omega
      · rw [if_neg hc]
        by_cases hch : c = ch
        · subst hch
          have hrev : c ∉ l'.reverse := fun h => hc (List.mem_reverse.mp h)
          rw [if_pos (List.mem_cons_self c l'), List.reverse_cons,
            List.indexOf_append_of_not_mem hrev]
          have h2 : List.indexOf c [c] = 0 := List.indexOf_cons_self c []
          have h3 : l'.reverse.length = l'.length := List.length_reverse l'
          have h4 : (c :: l').length = l'.length + 1 := by simp
          rw [h2, h3, h4]
          simp only [if_pos rfl, if_true]
          congr 1
          omega
        · have : c ∉ ch :: l' := by
            intro h
            rcases List.mem_cons.mp h with h' | h'
            · exact hch h'
            · exact hc h'
          rw [if_neg this, if_neg hch]

/-- `getBadCharShift` returns the distance of the rightmost occurrence from
the pattern end (the index of the character in the reversed pattern), and
the full pattern length for characters not in the pattern. -/
theorem getBadCharShift_eq (pat : List Char) (c : Char) :
    getBadCharShift pat c =
      if c ∈ pat then List.indexOf c pat.reverse else pat.length := by
  unfold getBadCharShift buildBadCharTable
  rw [List.enum_eq_enumFrom, tableAux pat.length pat 0 (fun _ => none) c]
  by_cases hc : c ∈ pat
  · have hidx : List.indexOf c pat.reverse < pat.length := by
      have := List.indexOf_lt_length.mpr (List.mem_reverse.mpr hc)
      simpa using this
    rw [if_pos hc, if_pos hc]
    simp only [Option.getD_some]
    omega
  · rw [if_neg hc, if_neg hc]
    rfl

/-- `List.indexOf` returns the first index whose element is `c`. -/
theorem indexOf_eq_of_first (c : Char) :
    ∀ (l : List Char) (k : Nat), k < l.length → l.getD k ' ' = c →
      (∀ j, j < k → l.getD j ' ' ≠ c) → List.indexOf c l = k := by
  intro l
  induction l with
  | nil =>
      intro k hk
      simp only [List.length_nil] at hk
      omega
  | cons x l' ih =>
      intro k hk hgk hfirst
      cases k with
      | zero =>
          simp only [List.getD_cons_zero] at hgk
          subst hgk
          exact List.indexOf_cons_self x l'
      | succ k' =>
          have hx : x ≠ c := by
            have := hfirst 0 (Nat.succ_pos k')
            simpa using this
          rw [List.indexOf_cons_ne l' hx]
          have hk' : k' < l'.length := by simpa using hk
          have hg' : l'.getD k' ' ' = c := by simpa using hgk

          have hf' : ∀ j, j < k' → l'.getD j ' ' ≠ c := by
            intro j hj
            have := hfirst (j + 1) (by omega)
            simpa using this
          rw [ih k' hk' hg' hf']

/-- Every offset produced by the scan loop lies at or beyond the current
alignment: `bmLoopF fuel i` only records offsets `x` with `i + 1 ≤ x + m`. -/
theorem bmLoopF_ge (text pat : List Char) :
    ∀ fuel i x, x ∈ bmLoopF text pat fuel i → i + 1 ≤ x + pat.length := by
  intro fuel
  induction fuel with
  | zero =>
      intro i x hx
      simp only [bmLoopF] at hx
      exact absurd hx (List.not_mem_nil x)
  | succ fuel ih =>
      intro i x hx
      by_cases h : i < text.length
      · simp only [bmLoopF, if_pos h] at hx
        cases hfm : findMismatch text pat i with
        | none =>
            rw [hfm] at hx
            rcases List.mem_cons.mp hx with rfl | hx'
            · omega
            · have := ih (i + pat.length) x hx'
              omega
        | some d =>
            rw [hfm] at hx
            have := ih (i + max 1 (getBadCharShift pat (text.getD (i - d) ' '))) x hx
            have h1 : 1 ≤ max 1 (getBadCharShift pat (text.getD (i - d) ' ')) :=
              le_max_left _ _
            omega
      · simp only [bmLoopF, if_neg h] at hx
        exact absurd hx (List.not_mem_nil x)

/-- Successive recorded offsets are at least a pattern length apart. -/
theorem bmLoopF_chain (text pat : List Char) :
    ∀ fuel i, pat.length - 1 ≤ i →
      List.Chain' (fun a b => a + pat.length ≤ b) (bmLoopF text pat fuel i) := by
  intro fuel
  induction fuel with
  | zero => intro i _; simp only [bmLoopF]; exact List.chain'_nil
  | succ fuel ih =>
      intro i hi
      by_cases h : i < text.length
      · simp only [bmLoopF, if_pos h]
        cases hfm : findMismatch text pat i with
        | none =>
            refine List.chain'_cons'.mpr ⟨?_, ih (i + pat.length) (by omega)⟩
            intro y hy
            have hmem := List.mem_of_mem_head? hy
            have := bmLoopF_ge text pat fuel (i + pat.length) y hmem
            omega
        | some d =>
            have h1 : 1 ≤ max 1 (getBadCharShift pat (text.getD (i - d) ' ')) :=
              le_max_left _ _
            exact ih (i + max 1 (getBadCharShift pat (text.getD (i - d) ' '))) (by omega)
      · simp only [bmLoopF, if_neg h]
        exact List.chain'_nil

/-- C8: the matcher follows the described algorithm.  (1) A character absent
from the pattern gets the full pattern length as its skip.  (2) A character
whose rightmost occurrence is at index `ℓ` gets distance `patternLen-1-ℓ`
from the pattern's end.  (3) On a mismatch at comparison offset `d` (text
index `k = i - d`) the cursor advances by `max 1 (skip text[k])`.  (4) On a
full match the offset `i+1-patternLen` is recorded and the cursor advances
by the pattern length.  (5) Hence recorded matches are non-overlapping:
successive offsets differ by at least the pattern length. -/
theorem c8_matcher_steps (pat : List Char) :
    (∀ c, c ∉ pat → getBadCharShift pat c = pat.length) ∧
    (∀ c ℓ, ℓ < pat.length → pat.getD ℓ ' ' = c →
        (∀ j, ℓ < j → j < pat.length → pat.getD j ' ' ≠ c) →
        getBadCharShift pat c = pat.length - 1 - ℓ) ∧
    (∀ (hp : 0 < pat.length) (text : List Char) i d, i < text.length →
        findMismatch text pat i = some d →
        bmLoop text pat hp i =
          bmLoop text pat hp
            (i + max 1 (getBadCharShift pat (text.getD (i - d) ' ')))) ∧
    (∀ (hp : 0 < pat.length) (text : List Char) i, i < text.length →
        findMismatch text pat i = none →
        bmLoop text pat hp i =
          (i + 1 - pat.length) :: bmLoop text pat hp (i + pat.length)) ∧
    (∀ (cs : Bool) (text : List Char),
        List.Chain' (fun a b => a + pat.length ≤ b) (bmSearch pat cs text)) := by
  refine ⟨?_, ?_, ?_, ?_, ?_⟩
  · intro c hc
    rw [getBadCharShift_eq, if_neg hc]
  · intro c ℓ hℓ hg hlast
    have hc : c ∈ pat := by
      rw [List.getD_eq_getElem pat ' ' hℓ] at hg
      exact hg ▸ List.getElem_mem hℓ
    rw [getBadCharShift_eq, if_pos hc]
    have hk : pat.length - 1 - ℓ < pat.reverse.length := by
      simp only [List.length_reverse]; omega
    apply indexOf_eq_of_first c pat.reverse (pat.length - 1 - ℓ) hk
    · rw [List.getD_eq_getElem pat.reverse ' ' hk, List.getElem_reverse]
      have hι : pat.length - 1 - (pat.length - 1 - ℓ) = ℓ := by omega
      rw [List.getD_eq_getElem pat ' ' hℓ] at hg
      simp only [hι]
      convert hg using 2
    · intro j hj
      have hjlen : j < pat.reverse.length := by omega
      rw [List.getD_eq_getElem pat.reverse ' ' hjlen, List.getElem_reverse]
      have hgt : ℓ < pat.length - 1 - j := by
        simp only [List.length_reverse] at hjlen
        omega
      have hlt : pat.length - 1 - j < pat.length := by omega
      have := hlast (pat.length - 1 - j) hgt hlt
      rw [List.getD_eq_getElem pat ' ' hlt] at this
      exact this
  · intro hp text i d h hfm
    rw [bmLoop, dif_pos h, hfm]
  · intro hp text i h hfm
    rw [bmLoop, dif_pos h, hfm]
  · intro cs text
    rw [← bmSearchF_eq]
    unfold bmSearchF
    by_cases hcond : (if cs then pat else goToLower pat).length = 0 ∨
        (if cs then text else goToLower text).length <
          (if cs then pat else goToLower pat).length
    · simp only [if_pos hcond]
      exact List.chain'_nil
    · simp only [if_neg hcond]
      have hlen : (if cs then pat else goToLower pat).length = pat.length := by
        cases cs <;> simp [goToLower]
      have := bmLoopF_chain (if cs then text else goToLower text)
        (if cs then pat else goToLower pat)
        (if cs then text else goToLower text).length
        ((if cs then pat else goToLower pat).length - 1) (Nat.le_refl _)
      simpa only [hlen] using this

/-- Witness for C8 at pattern `"ab"` and text `"cab"`. -/
theorem c8_matcher_steps_witness :
    getBadCharShift "ab".toList 'z' = "ab".toList.length ∧
    getBadCharShift "ab".toList 'a' = "ab".toList.length - 1 - 0 ∧
    bmLoop "cab".toList "ab".toList (by decide) 1 =
      bmLoop "cab".toList "ab".toList (by decide)
        (1 + max 1 (getBadCharShift "ab".toList ("cab".toList.getD (1 - 0) ' '))) ∧
    bmLoop "cab".toList "ab".toList (by decide) 2 =
      (2 + 1 - "ab".toList.length) ::
        bmLoop "cab".toList "ab".toList (by decide) (2 + "ab".toList.length) ∧
    List.Chain' (fun a b => a + "ab".toList.length ≤ b)
      (bmSearch "ab".toList true "cab".toList) := by
  obtain ⟨hA, hB, hC, hD, hE⟩ := c8_matcher_steps "ab".toList
  refine ⟨hA 'z' (by decide), ?_, ?_, ?_, hE true "cab".toList⟩
  · refine hB 'a' 0 (by decide) (by decide) ?_
    intro j h1 h2
    have : j = 1 := by
      have : "ab".toList.length = 2 := by decide
      omega
    subst this
    decide
  · exact hC (by decide) "cab".toList 1 0 (by decide) (by decide)
  · exact hD (by decide) "cab".toList 2 (by decide) (by decide)

/-! ### C7: the context extractor window -/

/-- The Go slice `lines[a:b]` (as a fresh copy, per the `make`+`copy` in
`getContext`). -/
def slice (l : List String) (a b : Nat) : List String := (l.drop a).take (b - a)

/-- `ContextSearch.getContext` (permission_finder.go:203-211):
`start = max(0, lineIndex - contextLines)` (truncated subtraction models the
`max` with 0 since both operands are non-negative) and
`end = min(len(lines), lineIndex + contextLines + 1)`. -/
def getContext (lines : List String) (lineIndex contextLines : Nat) : List String :=
  slice lines (lineIndex - contextLines)
    (min lines.length (lineIndex + contextLines + 1))

/-- C7: for a match on 1-based line `n` of a file with at least `n` lines,
the extractor returns exactly the contiguous block of lines whose 1-based
numbers run from `max 1 (n-c)` to `min len (n+c)`: the window has that
length and its `j`-th entry is the file line at 0-based index
`max 1 (n-c) - 1 + j`. -/
theorem c7_context_window (lines : List String) (n c : Nat)
    (h1 : 1 ≤ n) (h2 : n ≤ lines.length) :
    (getContext lines (n - 1) c).length
        = min lines.length (n + c) - (max 1 (n - c) - 1) ∧
    ∀ j, j < (getContext lines (n - 1) c).length →
      (getContext lines (n - 1) c).getD j "" =
        lines.getD (max 1 (n - c) - 1 + j) "" := by
  have ha : n - 1 - c = max 1 (n - c) - 1 := by omega
  have hb : min lines.length (n - 1 + c + 1) = min lines.length (n + c) := by omega
  have hlen : (getContext lines (n - 1) c).length
      = min lines.length (n + c) - (max 1 (n - c) - 1) := by
    unfold getContext slice
    rw [List.length_take, List.length_drop, ha, hb]
    omega
  refine ⟨hlen, ?_⟩
  intro j hj
  rw [hlen] at hj
  have hidx : max 1 (n - c) - 1 + j < lines.length := by omega
  have hj' : j < (getContext lines (n - 1) c).length := by rw [hlen]; omega
  rw [List.getD_eq_getElem _ _ hj', List.getD_eq_getElem _ _ hidx]
  unfold getContext slice
  rw [List.getElem_take, List.getElem_drop]
  congr 1
  omega

/-- Witness for C7: a 10-line file, a match on line 2 with two context
lines; the window has four lines and starts at the first file line. -/
theorem c7_context_window_witness :
    ((getContext ["a","b","c","d","e","f","g","h","i","j"] (2 - 1) 2).length
        = min (["a","b","c","d","e","f","g","h","i","j"] : List String).length (2 + 2)
            - (max 1 (2 - 2) - 1)) ∧
    (getContext ["a","b","c","d","e","f","g","h","i","j"] (2 - 1) 2).getD 0 ""
        = (["a","b","c","d","e","f","g","h","i","j"] : List String).getD
            (max 1 (2 - 2) - 1 + 0) "" := by
  have h := c7_context_window ["a","b","c","d","e","f","g","h","i","j"] 2 2
    (by decide) (by decide)
  exact ⟨h.1, h.2 0 (by rw [h.1]; decide)⟩

/-! ### C6: aggregate context of a file -/

/-- The context-aggregation step of `searchFileContent`
(keyword_finder.go:163-168): append each window line not already present
(`contains` compares whole strings). -/
def addUnique (acc w : List String) : List String :=
  w.foldl (fun a s => if s ∈ a then a else a ++ [s]) acc

/-- The 0-based indices of the lines `BoyerMoore.SearchLines`
(permission_finder.go:138-154) reports: the lines on which `Search` finds at
least one position, in file order. -/
def searchLineIdxs (pat0 : List Char) (cs : Bool) (lines : List String) : List Nat :=
  (List.range lines.length).filter
    fun i => !(bmSearch pat0 cs (lines.getD i "").toList).isEmpty

/-- The file's aggregate context as `searchFileContent`
(keyword_finder.go:155-169) builds it: fold the matches in order, adding
each match's context window through `addUnique`.  `SearchWithContext` passes
`LineNumber - 1`, i.e. the 0-based index. -/
def fileContext (lines : List String) (pat0 : List Char) (cs : Bool) (c : Nat) :
    List String :=
  (searchLineIdxs pat0 cs lines).foldl
    (fun acc i => addUnique acc (getContext lines i c)) []

theorem mem_addUnique :
    ∀ (w acc : List String) (s : String), s ∈ addUnique acc w ↔ s ∈ acc ∨ s ∈ w := by
  intro w
  induction w with
  | nil => intro acc s; simp [addUnique]
  | cons x w' ih =>
      intro acc s
      show s ∈ addUnique (if x ∈ acc then acc else acc ++ [x]) w' ↔ _
      rw [ih]
      by_cases hx : x ∈ acc
      · rw [if_pos hx]
        constructor
        · rintro (h | h)
          · exact Or.inl h
          · exact Or.inr (List.mem_cons_of_mem x h)
        · rintro (h | h)
          · exact Or.inl h
          · rcases List.mem_cons.mp h with rfl | h'
            · exact Or.inl hx
            · exact Or.inr h'
      · rw [if_neg hx]
        simp only [List.mem_append, List.mem_cons, List.mem_singleton]
        tauto

theorem nodup_addUnique :
    ∀ (w acc : List String), acc.Nodup → (addUnique acc w).Nodup := by
  intro w
  induction w with
  | nil => intro acc h; exact h
  | cons x w' ih =>
      intro acc h
      show (addUnique (if x ∈ acc then acc else acc ++ [x]) w').Nodup
      by_cases hx : x ∈ acc
      · rw [if_pos hx]; exact ih acc h
      · rw [if_neg hx]
        refine ih (acc ++ [x]) (List.nodup_append.mpr ⟨h, List.nodup_singleton x, ?_⟩)
        intro a ha hax
        rw [List.mem_singleton] at hax
        exact hx (hax ▸ ha)

theorem addUnique_append :
    ∀ (w acc : List String), ∃ app, addUnique acc w = acc ++ app ∧
      app.Sublist w ∧ ∀ x ∈ app, x ∉ acc := by
  intro w
  induction w with
  | nil => intro acc; exact ⟨[], by simp [addUnique], List.nil_sublist _, by simp⟩
  | cons x w' ih =>
      intro acc
      by_cases hx : x ∈ acc
      · obtain ⟨app, heq, hsub, hnot⟩ := ih acc
        refine ⟨app, ?_, hsub.cons x, hnot⟩
        show addUnique (if x ∈ acc then acc else acc ++ [x]) w' = acc ++ app
        rw [if_pos hx]; exact heq
      · obtain ⟨app', heq', hsub', hnot'⟩ := ih (acc ++ [x])
        refine ⟨x :: app', ?_, List.Sublist.cons₂ x hsub', ?_⟩
        · show addUnique (if x ∈ acc then acc else acc ++ [x]) w' = acc ++ (x :: app')
          rw [if_neg hx, heq', List.append_assoc, List.singleton_append]
        · intro y hy
          rcases List.mem_cons.mp hy with rfl | hy'
          · exact hx
          · intro hyacc
            exact hnot' y hy' (List.mem_append.mpr (Or.inl hyacc))

theorem sublist_right_of_not_mem :
    ∀ (w1 : List String) {w2 app : List String}, app.Sublist (w1 ++ w2) →
      (∀ x ∈ w1, x ∉ app) → app.Sublist w2 := by
  intro w1
  induction w1 with
  | nil => intro w2 app h _; simpa using h
  | cons x w1' ih =>
      intro w2 app h hnot
      cases h with
      | cons a h' =>
          exact ih h' fun y hy => hnot y (List.mem_cons_of_mem x hy)
      | cons₂ a h' =>
          exact absurd (List.mem_cons_self x _) (hnot x (List.mem_cons_self x w1'))

theorem slice_split (lines : List String) (a k b : Nat) (h1 : a ≤ k) (h2 : k ≤ b) :
    slice lines a b = slice lines a k ++ slice lines k b := by
  unfold slice
  have hsum : b - a = (k - a) + (b - k) := by omega
  rw [hsum, List.take_add, List.drop_drop]
  have : a + (k - a) = k := by omega
  rw [this]

theorem mem_slice_of (lines : List String) (a b j : Nat)
    (h1 : a ≤ j) (h2 : j < b) (h3 : b ≤ lines.length) :
    lines.getD j "" ∈ slice lines a b := by
  have hjl : j < lines.length := by omega
  have hlen : j - a < (slice lines a b).length := by
    unfold slice
    rw [List.length_take, List.length_drop]
    omega
  rw [List.getD_eq_getElem _ _ hjl]
  refine List.mem_iff_getElem.mpr ⟨j - a, hlen, ?_⟩
  unfold slice
  rw [List.getElem_take, List.getElem_drop]
  congr 1
  omega

theorem mem_of_mem_slice (lines : List String) (a b : Nat) (x : String)
    (hx : x ∈ slice lines a b) :
    ∃ j, a ≤ j ∧ j < b ∧ j < lines.length ∧ lines.getD j "" = x := by
  obtain ⟨i, hi, heq⟩ := List.mem_iff_getElem.mp hx
  have hlen : (slice lines a b).length = min (b - a) (lines.length - a) := by
    unfold slice
    rw [List.length_take, List.length_drop]
  rw [hlen] at hi
  refine ⟨a + i, by omega, by omega, by omega, ?_⟩
  rw [List.getD_eq_getElem _ _ (by omega : a + i < lines.length)]
  rw [← heq]
  unfold slice
  rw [List.getElem_take, List.getElem_drop]

/-- Windows of a content search, as index intervals over the file's lines:
starts and ends are monotone (matches are reported in increasing line
order) and every end is clipped to the line count. -/
inductive ChainWin (len : Nat) : Nat → Nat → List (Nat × Nat) → Prop where
  | nil : ∀ a m, ChainWin len a m []
  | cons : ∀ a m a' b' ws, a ≤ a' → m ≤ b' → b' ≤ len → ChainWin len a' b' ws →
      ChainWin len a m ((a', b') :: ws)

/-- Adding one window keeps the aggregate a sublist of an initial segment of
the file and makes the aggregate cover the new window's index range. -/
theorem addUnique_slice_inv (lines acc : List String) (a m a' b' : Nat)
    (hs : acc.Sublist (lines.take m))
    (hcov : ∀ j, a ≤ j → j < m → lines.getD j "" ∈ acc)
    (haa : a ≤ a') (hmb : m ≤ b') (hbl : b' ≤ lines.length) :
    (addUnique acc (slice lines a' b')).Sublist (lines.take b') ∧
    ∀ j, a' ≤ j → j < b' → lines.getD j "" ∈ addUnique acc (slice lines a' b') := by
  obtain ⟨app, heq, hsub, hnot⟩ := addUnique_append (slice lines a' b') acc
  have happ2 : app.Sublist (slice lines m b') := by
    by_cases hma : m ≤ a'
    · by_cases hab : a' ≤ b'
      · have hsplit : slice lines m b' = slice lines m a' ++ slice lines a' b' :=
          slice_split lines m a' b' hma hab
        rw [hsplit]
        exact hsub.trans (List.sublist_append_right _ _)
      · have hempty : slice lines a' b' = [] := by
          unfold slice
          have : b' - a' = 0 := by omega
          rw [this]
          rfl
        rw [hempty] at hsub
        rw [List.sublist_nil.mp hsub]
        exact List.nil_sublist _
    · have hsplit : slice lines a' b' = slice lines a' m ++ slice lines m b' :=
        slice_split lines a' m b' (by omega) hmb
      rw [hsplit] at hsub
      refine sublist_right_of_not_mem (slice lines a' m) hsub ?_
      intro x hx hxapp
      obtain ⟨j, hj1, hj2, _, hj4⟩ := mem_of_mem_slice lines a' m x hx
      exact hnot x hxapp (hj4 ▸ hcov j (haa.trans hj1) hj2)
  constructor
  · have htake : lines.take m ++ slice lines m b' = lines.take b' := by
      unfold slice
      rw [← List.take_add]
      congr 1
      omega
    rw [heq, ← htake]
    exact hs.append happ2
  · intro j hj1 hj2
    exact (mem_addUnique _ _ _).mpr (Or.inr (mem_slice_of lines a' b' j hj1 hj2 hbl))

/-- Folding `addUnique` over a monotone list of clipped windows, starting
from an aggregate that is a sublist of an initial segment and covers its
window range, yields a sublist of the file's lines. -/
theorem foldWin_sublist (lines : List String) :
    ∀ (ws : List (Nat × Nat)) (acc : List String) (a m : Nat),
      acc.Sublist (lines.take m) →
      (∀ j, a ≤ j → j < m → lines.getD j "" ∈ acc) →
      ChainWin lines.length a m ws →
      (ws.foldl (fun acc w => addUnique acc (slice lines w.1 w.2)) acc).Sublist
        lines := by
  intro ws
  induction ws with
  | nil =>
      intro acc a m hs _ _
      exact hs.trans (List.take_sublist m lines)
  | cons w ws' ih =>
      intro acc a m hs hcov hcw
      cases hcw with
      | cons _ _ a' b' _ haa hmb hbl hcw' =>
          obtain ⟨hs', hcov'⟩ :=
            addUnique_slice_inv lines acc a m a' b' hs hcov haa hmb hbl
          exact ih (addUnique acc (slice lines a' b')) a' b' hs' hcov' hcw'

theorem fold_addUnique_mem (lines : List String) :
    ∀ (ws : List (Nat × Nat)) (acc : List String) (s : String),
      s ∈ ws.foldl (fun acc w => addUnique acc (slice lines w.1 w.2)) acc ↔
        s ∈ acc ∨ ∃ w ∈ ws, s ∈ slice lines w.1 w.2 := by
  intro ws
  induction ws with
  | nil => intro acc s; simp
  | cons w ws' ih =>
      intro acc s
      rw [List.foldl_cons, ih, mem_addUnique]
      constructor
      · rintro ((h | h) | ⟨w', hw', h⟩)
        · exact Or.inl h
        · exact Or.inr ⟨w, List.mem_cons_self w ws', h⟩
        · exact Or.inr ⟨w', List.mem_cons_of_mem w hw', h⟩
      · rintro (h | ⟨w', hw', h⟩)
        · exact Or.inl (Or.inl h)
        · rcases List.mem_cons.mp hw' with rfl | hw''
          · exact Or.inl (Or.inr h)
          · exact Or.inr ⟨w', hw'', h⟩

theorem fold_addUnique_nodup (lines : List String) :
    ∀ (ws : List (Nat × Nat)) (acc : List String), acc.Nodup →
      (ws.foldl (fun acc w => addUnique acc (slice lines w.1 w.2)) acc).Nodup := by
  intro ws
  induction ws with
  | nil => intro acc h; exact h
  | cons w ws' ih =>
      intro acc h
      exact ih _ (nodup_addUnique _ acc h)

/-- Sorted valid match indices produce a `ChainWin` list of windows. -/
theorem chainWin_of_sorted (lines : List String) (c : Nat) :
    ∀ (idxs : List Nat) (a m : Nat),
      (∀ i ∈ idxs, i < lines.length ∧ a ≤ i - c ∧
          m ≤ min lines.length (i + c + 1)) →
      idxs.Pairwise (· ≤ ·) →
      ChainWin lines.length a m
        (idxs.map fun i => (i - c, min lines.length (i + c + 1))) := by
  intro idxs
  induction idxs with
  | nil => intro a m _ _; exact ChainWin.nil a m
  | cons i rest ih =>
      intro a m hb hp
      obtain ⟨hlen, hai, hmi⟩ := hb i (List.mem_cons_self i rest)
      rcases List.pairwise_cons.mp hp with ⟨hle, hrest⟩
      refine ChainWin.cons a m _ _ _ hai hmi (min_le_left _ _) ?_
      refine ih (i - c) (min lines.length (i + c + 1)) ?_ hrest
      intro j hj
      obtain ⟨hjlen, _, _⟩ := hb j (List.mem_cons_of_mem i hj)
      have hij := hle j hj
      refine ⟨hjlen, by omega, ?_⟩
      exact min_le_min (le_refl _) (by omega)

/-- C6: the aggregate context of a file is duplicate-free, contains exactly
the lines of the matches' context windows, and is a sublist of the file's
line sequence (so the surviving lines keep their original order). -/
theorem c6_aggregate_context (lines : List String) (pat0 : List Char)
    (cs : Bool) (c : Nat) :
    (fileContext lines pat0 cs c).Nodup ∧
    (∀ s, s ∈ fileContext lines pat0 cs c ↔
        ∃ i ∈ searchLineIdxs pat0 cs lines, s ∈ getContext lines i c) ∧
    (fileContext lines pat0 cs c).Sublist lines := by
  have hrw : fileContext lines pat0 cs c =
      ((searchLineIdxs pat0 cs lines).map
          fun i => (i - c, min lines.length (i + c + 1))).foldl
        (fun acc w => addUnique acc (slice lines w.1 w.2)) [] := by
    unfold fileContext getContext
    rw [List.foldl_map]
  have hsub : (searchLineIdxs pat0 cs lines).Sublist (List.range lines.length) :=
    List.filter_sublist _
  have hsorted : (searchLineIdxs pat0 cs lines).Pairwise (· ≤ ·) :=
    (List.Pairwise.sublist hsub (List.pairwise_lt_range _)).imp Nat.le_of_lt
  have hmemlen : ∀ i ∈ searchLineIdxs pat0 cs lines, i < lines.length := by
    intro i hi
    exact List.mem_range.mp (hsub.mem hi)
  refine ⟨?_, ?_, ?_⟩
  · rw [hrw]
    exact fold_addUnique_nodup lines _ [] List.nodup_nil
  · intro s
    rw [hrw, fold_addUnique_mem]
    constructor
    · rintro (h | ⟨w, hw, h⟩)
      · exact absurd h (List.not_mem_nil s)
      · obtain ⟨i, hi, rfl⟩ := List.mem_map.mp hw
        exact ⟨i, hi, h⟩
    · rintro ⟨i, hi, h⟩
      exact Or.inr ⟨(i - c, min lines.length (i + c + 1)),
        List.mem_map.mpr ⟨i, hi, rfl⟩, h⟩
  · rw [hrw]
    refine foldWin_sublist lines _ [] 0 0 (List.nil_sublist _) (by omega) ?_
    refine chainWin_of_sorted lines c _ 0 0 ?_ hsorted
    intro i hi
    exact ⟨hmemlen i hi, Nat.zero_le _, Nat.zero_le _⟩

/-! ### C4, C5: walk filter predicates -/

/-- `SearchConfig` (config.go:16-32), restricted to the fields the filter
and content-search claims consult.  Defaults mirror `NewDefaultConfig`;
`contextLines` is a count and is modelled as `Nat`. -/
structure SearchConfig where
  maxDepth : Int := -1
  sizeLimit : Int := -1
  fileTypes : List String := []
  excludeDirs : List String := []
  caseSensitive : Bool := false
  contextLines : Nat := 2
  maxContentSize : Int := 10485760

/-- `strings.Count(path, string(os.PathSeparator))` for a one-character
separator, with the separator modelled as `/`. -/
def countSep (p : List Char) : Nat := p.countP (· == '/')

/-- `filepath.Ext`: the suffix of the final path element starting at its
last dot, empty when the final element has no dot. -/
def goExt (p : List Char) : List Char :=
  let fin := p.reverse.takeWhile (· != '/')
  if fin.any (· == '.') then '.' :: (fin.takeWhile (· != '.')).reverse else []

/-- `filepath.Base` on the non-empty, non-trailing-slash paths a directory
walk produces: everything after the last separator. -/
def goBase (p : List Char) : List Char := (p.reverse.takeWhile (· != '/')).reverse

/-- `shouldSkipFile` (flag_finder.go:177-209): full-path substring test
against each `excludeDirs` entry; when `fileTypes` is non-empty and the
entry is a file, the lower-cased `filepath.Ext` must equal `"." + t` for
some allowed type `t` (the allowed type itself is not lower-cased); when
`maxDepth > 0`, a separator count above `maxDepth` skips the path. -/
def shouldSkipFile (path : List Char) (isDir : Bool) (cfg : SearchConfig) : Bool :=
  if cfg.excludeDirs.any fun d => strContains path d.toList then true
  else if 0 < cfg.fileTypes.length ∧ isDir = false ∧
      (cfg.fileTypes.any fun t => goToLower (goExt path) == '.' :: t.toList) = false
    then true
  else if 0 < cfg.maxDepth ∧ cfg.maxDepth < (countSep path : Int) then true
  else false

/-- `shouldExcludeDir` (keyword_finder.go:222-230): exact equality of the
directory's base name with an excluded entry. -/
def shouldExcludeDir (dirPath : List Char) (excludeDirs : List String) : Bool :=
  excludeDirs.any fun e => goBase dirPath == e.toList

/-- `isAllowedFileType` (keyword_finder.go:232-244): lower-cased extension
with the leading dot removed, compared against each allowed type
lower-cased. -/
def isAllowedFileType (path : List Char) (allowed : List String) : Bool :=
  let ext0 := goToLower (goExt path)
  let ext := if ext0 == [] then ext0 else ext0.drop 1
  allowed.any fun t => ext == goToLower t.toList

/-- The text-extension allow list of `TextParser.IsTextFile`
(progress.go:199-219). -/
def textExts : List String :=
  [".txt", ".log", ".conf", ".cfg", ".ini", ".json", ".xml", ".yaml", ".yml",
   ".md", ".go", ".py", ".js", ".html", ".css", ".sql", ".sh", ".bat", ".ps1"]

/-- `TextParser.isBinaryFile` (progress.go:111-138) on the first 512 bytes:
any NUL byte classifies as binary; otherwise the non-printable ratio test
`float64(nonPrint)/float64(n) > 0.3` decides.  The floating-point ratio
comparison is taken as a parameter `ratioTest nonPrint n`; no claim below
depends on its value, because the NUL test short-circuits it. -/
def isBinaryPrefix (ratioTest : Nat → Nat → Bool) (data : List Nat) : Bool :=
  let buf := data.take 512
  let nulls := buf.countP (· == 0)
  let nonPrint := buf.countP fun b =>
    decide (b < 32) && !(b == 9) && !(b == 10) && !(b == 13)
  decide (0 < nulls) || ratioTest nonPrint buf.length

/-- `TextParser.IsTextFile` (progress.go:195-234): files with an extension
are classified by the allow list alone; extension-less files are opened and
classified by `isBinaryFile`. -/
def isTextFile (ratioTest : Nat → Nat → Bool) (path : List Char)
    (content : List Nat) : Bool :=
  let ext := goToLower (goExt path)
  if !(ext == []) then textExts.any fun t => t.toList == ext
  else !isBinaryPrefix ratioTest content

/-- The per-file filter chain of `findByContentOnly`
(keyword_finder.go:54-67): size limit, extension allow list, text-file
check, in that order. -/
def contentFileAdmit (ratioTest : Nat → Nat → Bool) (cfg : SearchConfig)
    (path : List Char) (size : Int) (content : List Nat) : Bool :=
  if 0 < cfg.sizeLimit ∧ cfg.sizeLimit < size then false
  else if 0 < cfg.fileTypes.length ∧ isAllowedFileType path cfg.fileTypes = false
    then false
  else if isTextFile ratioTest path content = false then false
  else true

/-- C5 counterexample: with `maxDepth = 0` the depth filter is inactive —
the path `a/b` has separator count 1, which exceeds 0, yet is not
skipped. -/
theorem c5_depth_zero_counterexample :
    shouldSkipFile "a/b".toList false { maxDepth := 0 } = false ∧
      countSep "a/b".toList = 1 := by
  constructor <;> rfl

/-- C5 amended: the depth filter applies only when `maxDepth > 0`; then any
path whose separator count exceeds `maxDepth` is skipped (whatever the
other filters say, since they can only skip too). -/
theorem c5_depth_filter (path : List Char) (isDir : Bool) (cfg : SearchConfig)
    (h1 : 1 ≤ cfg.maxDepth) (h2 : cfg.maxDepth < (countSep path : Int)) :
    shouldSkipFile path isDir cfg = true := by
  unfold shouldSkipFile
  split_ifs with ha hb hc
  · rfl
  · rfl
  · rfl
  · exact absurd ⟨by omega, h2⟩ hc

/-- Witness for C5 amended at `maxDepth = 1` and path `a/b/c`. -/
theorem c5_depth_filter_witness :
    shouldSkipFile "a/b/c".toList false { maxDepth := 1 } = true :=
  c5_depth_filter "a/b/c".toList false { maxDepth := 1 } (by decide) (by decide)

/-- C4 counterexample: the content walk and the index builder do not apply
the same filters.  With `fileTypes = ["TXT"]`, the file `a.txt` passes the
content walk's case-insensitive extension filter (and its text-file check),
but `shouldSkipFile` — which compares the lower-cased extension `.txt`
against the non-lowered `".TXT"` — skips it. -/
theorem c4_filters_differ :
    contentFileAdmit (fun _ _ => false) { fileTypes := ["TXT"] }
        "a.txt".toList 1 [104, 105] = true ∧
      shouldSkipFile "a.txt".toList false { fileTypes := ["TXT"] } = true := by
  constructor <;> rfl

theorem isAllowedFileType_iff (path : List Char) (allowed : List String) :
    isAllowedFileType path allowed = true ↔
      ∃ t ∈ allowed, (goToLower (goExt path)).drop 1 = goToLower t.toList := by
  unfold isAllowedFileType
  simp only [List.any_eq_true, beq_iff_eq]
  by_cases h : goToLower (goExt path) = []
  · simp only [if_pos h, h, List.drop_nil, if_true]
  · simp only [if_neg h]

/-- C4 amended: the content walk applies its own per-file filters, not the
index builder's — admit iff the size limit (when positive) is respected,
the lower-cased dot-stripped extension equals some allowed type lower-cased
(when the allow list is non-empty), and the file passes the text-file
check; and its directory pruning excludes exactly the directories whose
base name equals an `excludeDirs` entry. -/
theorem c4_content_filter (ratioTest : Nat → Nat → Bool) (cfg : SearchConfig)
    (path : List Char) (size : Int) (content : List Nat) :
    (contentFileAdmit ratioTest cfg path size content = true ↔
      ((0 < cfg.sizeLimit → size ≤ cfg.sizeLimit) ∧
       (cfg.fileTypes ≠ [] → ∃ t ∈ cfg.fileTypes,
          (goToLower (goExt path)).drop 1 = goToLower t.toList) ∧
       isTextFile ratioTest path content = true)) ∧
    ∀ (dirPath : List Char) (excl : List String),
      shouldExcludeDir dirPath excl = true ↔ ∃ e ∈ excl, goBase dirPath = e.toList := by
  constructor
  · unfold contentFileAdmit
    split_ifs with h1 h2 h3
    · constructor
      · intro h; cases h
      · rintro ⟨ha, _, _⟩
        have := ha h1.1
        omega
    · constructor
      · intro h; cases h
      · rintro ⟨_, hb, _⟩
        have hne : cfg.fileTypes ≠ [] := by
          intro h
          rw [h] at h2
          simp at h2
        have := (isAllowedFileType_iff path cfg.fileTypes).mpr (hb hne)
        rw [this] at h2
        cases h2.2
    · constructor
      · intro h; cases h
      · rintro ⟨_, _, hcv⟩
        rw [hcv] at h3
        cases h3
    · constructor
      · intro _
        refine ⟨?_, ?_, ?_⟩
        · intro hsl
          by_contra hgt
          exact h1 ⟨hsl, by omega⟩
        · intro hne
          have hlen : 0 < cfg.fileTypes.length := List.length_pos.mpr hne
          rcases Bool.eq_false_or_eq_true (isAllowedFileType path cfg.fileTypes) with
            ht | hf
          · exact (isAllowedFileType_iff path cfg.fileTypes).mp ht
          · exact absurd ⟨hlen, hf⟩ h2
        · rcases Bool.eq_false_or_eq_true (isTextFile ratioTest path content) with
            ht | hf
          · exact ht
          · exact absurd hf h3
      · intro _; rfl
  · intro dirPath excl
    unfold shouldExcludeDir
    simp only [List.any_eq_true, beq_iff_eq]

/-! ### C9: binary files in content mode -/

/-- One regular file visited by the content-mode walk: its path, its
`os.Stat` size, and its byte content. -/
structure FileEntry where
  path : String
  size : Int
  content : List Nat

/-- The sentinel `ParseFile` returns for binary files (progress.go:95). -/
def binSentinel : String := "[二进制文件]"

/-- `TextParser.ParseFile` (progress.go:75-108): size ceiling, binary
check, then decode.  `os.Stat`/`os.Open` failures are not modelled (the
walk just visited the file); `detectAndConvertEncoding` is the `decode`
parameter — no claim depends on its output. -/
def parseFile (ratioTest : Nat → Nat → Bool) (decode : List Nat → String)
    (maxSize : Int) (f : FileEntry) : Except Unit String :=
  if 0 < maxSize ∧ maxSize < f.size then .error ()
  else if isBinaryPrefix ratioTest f.content then .ok binSentinel
  else .ok (decode f.content)

/-- `TextParser.GetFileLines` (progress.go:237-249): parse, reject the
binary sentinel, split on newline. -/
def getFileLines (ratioTest : Nat → Nat → Bool) (decode : List Nat → String)
    (maxSize : Int) (f : FileEntry) : Except Unit (List String) :=
  match parseFile ratioTest decode maxSize f with
  | .error e => .error e
  | .ok content =>
      if content = binSentinel then .error ()
      else .ok (content.splitOn "\n")

/-- The match-relevant fields of `FileInfo` (config.go:3-14) that
`searchFileContent` fills in. -/
structure FileInfoRes where
  path : String
  matchLines : List Nat
  matchCount : Nat
  context : List String

/-- `searchFileContent` (keyword_finder.go:124-180): read lines, search
with the context searcher, return `none` (found=false) on read error or
zero matches. -/
def searchFileContent (ratioTest : Nat → Nat → Bool) (decode : List Nat → String)
    (keyword : String) (cfg : SearchConfig) (f : FileEntry) : Option FileInfoRes :=
  match getFileLines ratioTest decode cfg.maxContentSize f with
  | .error _ => none
  | .ok lines =>
      let idxs := searchLineIdxs keyword.toList cfg.caseSensitive lines
      if idxs.isEmpty then none
      else some {
        path := f.path
        matchLines := idxs.map (· + 1)
        matchCount := (idxs.map fun i =>
          (bmSearch keyword.toList cfg.caseSensitive (lines.getD i "").toList).length).sum
        context := fileContext lines keyword.toList cfg.caseSensitive cfg.contextLines }

/-- The per-file body of the `findByContentOnly` walk callback
(keyword_finder.go:40-76): size limit, type filter, text check, then
content search; every branch returns a nil walk error. -/
def contentStep (ratioTest : Nat → Nat → Bool) (decode : List Nat → String)
    (keyword : String) (cfg : SearchConfig)
    (acc : List (String × FileInfoRes)) (f : FileEntry) :
    List (String × FileInfoRes) :=
  if 0 < cfg.sizeLimit ∧ cfg.sizeLimit < f.size then acc
  else if 0 < cfg.fileTypes.length ∧
      isAllowedFileType f.path.toList cfg.fileTypes = false then acc
  else if isTextFile ratioTest f.path.toList f.content = false then acc
  else match searchFileContent ratioTest decode keyword cfg f with
    | none => acc
    | some r => acc ++ [(f.path, r)]

/-- `findByContentOnly` (keyword_finder.go:36-79) over the regular files
the walk visits.  The callback swallows walk errors (returns nil for every
file and at most `SkipDir` for a pruned directory), so the error returned
to the caller is always nil; directory entries contribute nothing to the
results. -/
def findByContentOnly (ratioTest : Nat → Nat → Bool) (decode : List Nat → String)
    (keyword : String) (cfg : SearchConfig) (files : List FileEntry) :
    List (String × FileInfoRes) × Option Unit :=
  (files.foldl (contentStep ratioTest decode keyword cfg) [], none)

/-- A NUL byte within the first 512 bytes. -/
def hasNulPrefix (data : List Nat) : Bool := (data.take 512).any (· == 0)

theorem isBinaryPrefix_of_nul (ratioTest : Nat → Nat → Bool) (data : List Nat)
    (h : hasNulPrefix data = true) : isBinaryPrefix ratioTest data = true := by
  unfold hasNulPrefix at h
  unfold isBinaryPrefix
  obtain ⟨x, hx, hx0⟩ := List.any_eq_true.mp h
  have hpos : 0 < (data.take 512).countP (· == 0) :=
    List.countP_pos.mpr ⟨x, hx, hx0⟩
  simp only [decide_eq_true hpos, Bool.true_or]

/-- A successful `searchFileContent` means the file's inspected prefix was
not classified binary (in particular it holds no NUL byte). -/
theorem searchFileContent_some_not_binary (ratioTest : Nat → Nat → Bool)
    (decode : List Nat → String) (keyword : String) (cfg : SearchConfig)
    (f : FileEntry) (r : FileInfoRes)
    (hs : searchFileContent ratioTest decode keyword cfg f = some r) :
    isBinaryPrefix ratioTest f.content = false := by
  rcases Bool.eq_false_or_eq_true (isBinaryPrefix ratioTest f.content) with ht | hf
  · exfalso
    unfold searchFileContent getFileLines parseFile at hs
    by_cases h1 : 0 < cfg.maxContentSize ∧ cfg.maxContentSize < f.size
    · rw [if_pos h1] at hs
      simp at hs
    · rw [if_neg h1, if_pos ht] at hs
      simp at hs
  · exact hf

theorem contentStep_mem (ratioTest : Nat → Nat → Bool) (decode : List Nat → String)
    (keyword : String) (cfg : SearchConfig) (acc : List (String × FileInfoRes))
    (f : FileEntry) (p : String) (r : FileInfoRes)
    (h : (p, r) ∈ contentStep ratioTest decode keyword cfg acc f) :
    (p, r) ∈ acc ∨
      (f.path = p ∧ searchFileContent ratioTest decode keyword cfg f = some r) := by
  unfold contentStep at h
  split_ifs at h with h1 h2 h3
  · exact Or.inl h
  · exact Or.inl h
  · exact Or.inl h
  · cases hm : searchFileContent ratioTest decode keyword cfg f with
    | none =>
        rw [hm] at h
        exact Or.inl h
    | some r' =>
        rw [hm] at h
        rcases List.mem_append.mp h with h' | h'
        · exact Or.inl h'
        · rw [List.mem_singleton, Prod.mk.injEq] at h'
          obtain ⟨hp, hr⟩ := h'
          exact Or.inr ⟨hp.symm, by rw [hr]⟩


theorem contentFold_mem (ratioTest : Nat → Nat → Bool) (decode : List Nat → String)
    (keyword : String) (cfg : SearchConfig) :
    ∀ (files : List FileEntry) (acc : List (String × FileInfoRes))
      (p : String) (r : FileInfoRes),
      (p, r) ∈ files.foldl (contentStep ratioTest decode keyword cfg) acc →
      (p, r) ∈ acc ∨ ∃ f ∈ files, f.path = p ∧
        searchFileContent ratioTest decode keyword cfg f = some r := by
  intro files
  induction files with
  | nil => intro acc p r h; exact Or.inl h
  | cons f fs ih =>
      intro acc p r h
      rw [List.foldl_cons] at h
      rcases ih _ p r h with h' | ⟨f', hf', hprop⟩
      · rcases contentStep_mem ratioTest decode keyword cfg acc f p r h' with h'' | h''
        · exact Or.inl h''
        · exact Or.inr ⟨f, List.mem_cons_self f fs, h''⟩
      · exact Or.inr ⟨f', List.mem_cons_of_mem f hf', hprop⟩

/-- C9: in content mode the walk never surfaces an error, and every file
that reaches the result mapping had a NUL-free inspected prefix; with
distinct paths, a binary file (NUL byte within the first 512 bytes) is
excluded from the results. -/
theorem c9_binary_excluded (ratioTest : Nat → Nat → Bool)
    (decode : List Nat → String) (keyword : String) (cfg : SearchConfig)
    (files : List FileEntry) :
    (findByContentOnly ratioTest decode keyword cfg files).2 = none ∧
    (∀ p r, (p, r) ∈ (findByContentOnly ratioTest decode keyword cfg files).1 →
      ∃ f ∈ files, f.path = p ∧ hasNulPrefix f.content = false) ∧
    ((files.map FileEntry.path).Nodup →
      ∀ f ∈ files, hasNulPrefix f.content = true →
      ∀ r, (f.path, r) ∉ (findByContentOnly ratioTest decode keyword cfg files).1) := by
  have key : ∀ p r, (p, r) ∈ (findByContentOnly ratioTest decode keyword cfg files).1 →
      ∃ f ∈ files, f.path = p ∧
        searchFileContent ratioTest decode keyword cfg f = some r := by
    intro p r h
    rcases contentFold_mem ratioTest decode keyword cfg files [] p r h with h' | h'
    · exact absurd h' (List.not_mem_nil _)
    · exact h'
  have notNul : ∀ (f : FileEntry) r,
      searchFileContent ratioTest decode keyword cfg f = some r →
      hasNulPrefix f.content = false := by
    intro f r hs
    rcases Bool.eq_false_or_eq_true (hasNulPrefix f.content) with ht | hf
    · have := isBinaryPrefix_of_nul ratioTest f.content ht
      rw [searchFileContent_some_not_binary ratioTest decode keyword cfg f r hs] at this
      cases this
    · exact hf
  refine ⟨rfl, ?_, ?_⟩
  · intro p r h
    obtain ⟨f, hf, hp, hs⟩ := key p r h
    exact ⟨f, hf, hp, notNul f r hs⟩
  · intro hnd f hf hnul r hmem
    obtain ⟨f', hf', hp, hs⟩ := key f.path r hmem
    have : f' = f := List.inj_on_of_nodup_map hnd hf' hf hp
    rw [this] at hs
    rw [notNul f r hs] at hnul
    cases hnul

/-- Witness for C9: a one-file system holding a binary file `bin.txt`
(content is a single NUL byte). -/
theorem c9_binary_excluded_witness :
    (⟨"bin.txt", 1, [0]⟩ : FileEntry).path = "bin.txt" ∧
    ("bin.txt", (⟨"", [], 0, []⟩ : FileInfoRes)) ∉
      (findByContentOnly (fun _ _ => false) (fun _ => "") "a" {}
        [⟨"bin.txt", 1, [0]⟩]).1 := by
  refine ⟨rfl, ?_⟩
  exact (c9_binary_excluded (fun _ _ => false) (fun _ => "") "a" {}
      [⟨"bin.txt", 1, [0]⟩]).2.2 (by decide)
    ⟨"bin.txt", 1, [0]⟩ (List.mem_cons_self _ _) (by decide)
    ⟨"", [], 0, []⟩

/-! ### C3: the name-index referential invariant -/

/-- `FileIndex` (indexer.go:12-19), with times as integers. -/
structure FileIndexRec where
  path : String
  name : String
  size : Int
  modTime : Int
  isDir : Bool

/-- The indexer's two maps (indexer.go:23-24), as lookup functions. -/
structure IdxMaps where
  fileIndices : String → Option FileIndexRec
  nameIndices : String → List String

def emptyMaps : IdxMaps := ⟨fun _ => none, fun _ => []⟩

/-- One iteration of the worker flush loop (indexer.go:72-75 and 87-90):
`tempFileIndices[k] = v; tempNameIndices[v.Name] = append(..., v.Path)`,
where `k = v.Path` because the local cache is keyed by path. -/
def applyEntry (t : IdxMaps) (f : FileIndexRec) : IdxMaps :=
  { fileIndices := fun p => if p = f.path then some f else t.fileIndices p
    nameIndices := fun n =>
      if n = f.name then t.nameIndices n ++ [f.path] else t.nameIndices n }

/-- A whole batch flush performed under `idx.mu`. -/
def applyBatch (t : IdxMaps) (batch : List FileIndexRec) : IdxMaps :=
  batch.foldl applyEntry t

/-- The observable indexer state: the installed maps a reader under the
lock sees, plus the temporary maps of every in-flight `BuildIndex` run. -/
structure IndexerState where
  installed : IdxMaps
  builds : List IdxMaps

def initIndexer : IndexerState := ⟨emptyMaps, []⟩

/-- The lock-serialized transitions of the indexer: a build starts with
fresh temporary maps (indexer.go:45-46), a worker flushes a batch into a
build's temporary maps (indexer.go:71-76, 86-91), a finished build installs
its maps (indexer.go:154-158), and `Search` refreshes a single existing
record in place (indexer.go:196-207). -/
inductive IdxStep : IndexerState → IndexerState → Prop where
  | startBuild (s : IndexerState) :
      IdxStep s ⟨s.installed, s.builds ++ [emptyMaps]⟩
  | flush (s : IndexerState) (k : Nat) (batch : List FileIndexRec)
      (h : k < s.builds.length) :
      IdxStep s ⟨s.installed, s.builds.set k (applyBatch (s.builds.get ⟨k, h⟩) batch)⟩
  | swap (s : IndexerState) (k : Nat) (h : k < s.builds.length) :
      IdxStep s ⟨s.builds.get ⟨k, h⟩, s.builds.eraseIdx k⟩
  | refresh (s : IndexerState) (p : String) (r : FileIndexRec) (hp : r.path = p)
      (h : (s.installed.fileIndices p).isSome = true) :
      IdxStep s ⟨⟨fun q => if q = p then some r else s.installed.fileIndices q,
        s.installed.nameIndices⟩, s.builds⟩

/-- Every path stored under any name is a key of the path map. -/
def InvMaps (t : IdxMaps) : Prop :=
  ∀ n p, p ∈ t.nameIndices n → (t.fileIndices p).isSome = true

def InvState (s : IndexerState) : Prop :=
  InvMaps s.installed ∧ ∀ t ∈ s.builds, InvMaps t

theorem invMaps_empty : InvMaps emptyMaps := by
  intro n p h
  simp [emptyMaps] at h

theorem invMaps_applyEntry (t : IdxMaps) (f : FileIndexRec) (h : InvMaps t) :
    InvMaps (applyEntry t f) := by
  intro n p hp
  unfold applyEntry at hp ⊢
  simp only at hp ⊢
  by_cases hpf : p = f.path
  · rw [if_pos hpf]
    rfl
  · rw [if_neg hpf]
    by_cases hn : n = f.name
    · rw [if_pos hn] at hp
      rcases List.mem_append.mp hp with h' | h'
      · exact h n p h'
      · rw [List.mem_singleton] at h'
        exact absurd h' hpf
    · rw [if_neg hn] at hp
      exact h n p hp

theorem invMaps_applyBatch :
    ∀ (batch : List FileIndexRec) (t : IdxMaps), InvMaps t →
      InvMaps (applyBatch t batch) := by
  intro batch
  induction batch with
  | nil => intro t h; exact h
  | cons f fs ih =>
      intro t h
      exact ih (applyEntry t f) (invMaps_applyEntry t f h)

theorem invState_step {s s' : IndexerState} (hstep : IdxStep s s')
    (hinv : InvState s) : InvState s' := by
  cases hstep with
  | startBuild =>
      refine ⟨hinv.1, ?_⟩
      intro t ht
      rcases List.mem_append.mp ht with h' | h'
      · exact hinv.2 t h'
      · rw [List.mem_singleton] at h'
        exact h' ▸ invMaps_empty
  | flush k batch h =>
      refine ⟨hinv.1, ?_⟩
      intro t ht
      rcases List.mem_or_eq_of_mem_set ht with h' | h'
      · exact hinv.2 t h'
      · exact h' ▸ invMaps_applyBatch batch _ (hinv.2 _ (List.get_mem s.builds k h))
  | swap k h =>
      exact ⟨hinv.2 _ (List.get_mem s.builds k h),
        fun t ht => hinv.2 t (List.mem_of_mem_eraseIdx ht)⟩
  | refresh p r hp h =>
      refine ⟨?_, hinv.2⟩
      intro n q hq
      simp only at hq ⊢
      by_cases hqp : q = p
      · rw [if_pos hqp]
        rfl
      · rw [if_neg hqp]
        exact hinv.1 n q hq

/-- C3: in every state reachable from the initial indexer by any
interleaving of build starts, worker batch flushes, index installs and
`Search` record refreshes, each path appearing in a value list of the
installed `nameIndices` is a key of the installed `fileIndices`. -/
theorem c3_name_index_invariant :
    ∀ s : IndexerState, Relation.ReflTransGen IdxStep initIndexer s →
      ∀ n p, p ∈ s.installed.nameIndices n →
        (s.installed.fileIndices p).isSome = true := by
  intro s hreach
  have hinv : InvState s := by
    induction hreach with
    | refl =>
        exact ⟨invMaps_empty, fun t ht => absurd ht (List.not_mem_nil t)⟩
    | tail _ hstep ih => exact invState_step hstep ih
  exact fun n p hp => hinv.1 n p hp

/-- Witness for C3: start a build, flush one record, install it; the
installed maps then satisfy the invariant at that record. -/
theorem c3_name_index_invariant_witness :
    ((applyBatch emptyMaps [⟨"/a/f.txt", "f.txt", 1, 0, false⟩]).fileIndices
      "/a/f.txt").isSome = true := by
  have step1 : IdxStep initIndexer ⟨emptyMaps, [emptyMaps]⟩ :=
    IdxStep.startBuild initIndexer
  have step2 : IdxStep ⟨emptyMaps, [emptyMaps]⟩
      ⟨emptyMaps, [applyBatch emptyMaps [⟨"/a/f.txt", "f.txt", 1, 0, false⟩]]⟩ :=
    IdxStep.flush ⟨emptyMaps, [emptyMaps]⟩ 0
      [⟨"/a/f.txt", "f.txt", 1, 0, false⟩] (by decide)
  have step3 : IdxStep
      ⟨emptyMaps, [applyBatch emptyMaps [⟨"/a/f.txt", "f.txt", 1, 0, false⟩]]⟩
      ⟨applyBatch emptyMaps [⟨"/a/f.txt", "f.txt", 1, 0, false⟩], []⟩ :=
    IdxStep.swap ⟨emptyMaps, [applyBatch emptyMaps
      [⟨"/a/f.txt", "f.txt", 1, 0, false⟩]]⟩ 0 (by decide)
  refine c3_name_index_invariant
    ⟨applyBatch emptyMaps [⟨"/a/f.txt", "f.txt", 1, 0, false⟩], []⟩
    (Relation.ReflTransGen.tail
      (Relation.ReflTransGen.tail
        (Relation.ReflTransGen.tail Relation.ReflTransGen.refl step1) step2) step3)
    "f.txt" "/a/f.txt" ?_
  simp [applyBatch, applyEntry, emptyMaps]

/-! ### C2: traversal error handling in BuildIndex -/

/-- An error at the Go boundary, carrying whether `os.IsPermission` holds
for it. -/
structure GoErr where
  isPermission : Bool

inductive WalkRet where
  | nil
  | skipDir
  | fail (e : GoErr)

/-- The `err != nil` branch of the walk callback inside `BuildIndex`
(indexer.go:99-104): permission errors prune the subtree (`SkipDir`), every
other incoming error is swallowed (`return nil`). -/
def walkFnErrBranch (e : GoErr) : WalkRet :=
  if e.isPermission then .skipDir else .nil

/-- `filepath.Walk` when `os.Lstat(root)` fails with `e` (Go stdlib
semantics): the callback is invoked once with the error, and Walk returns
the callback's result with `SkipDir` mapped to nil. -/
def walkRootReturn (e : GoErr) : Option GoErr :=
  match walkFnErrBranch e with
  | .nil => none
  | .skipDir => none
  | .fail e' => some e'

/-- The tail of `BuildIndex` (indexer.go:144-161): on a non-nil walk error
keep the previous maps and surface the error, otherwise install the
temporary maps. -/
def buildIndexFinish (prev temp : IdxMaps) (walkErr : Option GoErr) :
    IdxMaps × Option GoErr :=
  match walkErr with
  | some e => (prev, some e)
  | none => (temp, none)

/-- `BuildIndex` when the root cannot be stat'ed: no entries reach the
workers, so the temporary maps stay empty, and the walk error is whatever
`walkRootReturn` yields. -/
def buildIndexRootFail (prev : IdxMaps) (e : GoErr) : IdxMaps × Option GoErr :=
  buildIndexFinish prev emptyMaps (walkRootReturn e)

/-- C2 refuted: when the root directory does not exist (a non-permission
lstat error), `BuildIndex` returns a nil error and installs the empty
temporary maps, discarding the previous index — the walk callback swallows
the traversal error, so the error check before the map swap is dead
code. -/
theorem c2_root_error_swallowed (prev : IdxMaps) (e : GoErr)
    (hnp : e.isPermission = false) :
    buildIndexRootFail prev e = (emptyMaps, none) := by
  unfold buildIndexRootFail walkRootReturn walkFnErrBranch buildIndexFinish
  rw [hnp]
  rfl

/-- Witness for C2: a populated previous index is replaced by empty maps
with a nil error. -/
theorem c2_root_error_swallowed_witness :
    buildIndexRootFail
        (applyBatch emptyMaps [⟨"/a/f.txt", "f.txt", 1, 0, false⟩]) ⟨false⟩ =
      (emptyMaps, none) :=
  c2_root_error_swallowed
    (applyBatch emptyMaps [⟨"/a/f.txt", "f.txt", 1, 0, false⟩]) ⟨false⟩ rfl

/-! ### C10: the filename-mode index query -/

/-- What `os.Stat` reports at query time. -/
structure StatRec where
  name : String
  size : Int
  modTime : Int
  isDir : Bool

/-- The refreshed record `Search` writes when the on-disk modification time
drifted (indexer.go:198-206). -/
def recFromStat (p : String) (st : StatRec) : FileIndexRec :=
  ⟨p, st.name, st.size, st.modTime, st.isDir⟩

/-- The per-candidate body of `Indexer.Search` (indexer.go:186-214): use
the stored record (skipping missing keys and directories), re-stat the path
(skipping paths that no longer exist), refresh the stored record in place
when the modification time changed, then build the result entry through
`GetFileInfo` (modelled by the oracle `getFI`, which may fail). -/
def searchPathStep {β : Type} (stat : String → Option StatRec)
    (getFI : String → Option β)
    (st : (String → Option FileIndexRec) × List (String × β)) (p : String) :
    (String → Option FileIndexRec) × List (String × β) :=
  match st.1 p with
  | none => st
  | some rec =>
      if rec.isDir then st
      else match stat p with
        | none => st
        | some info =>
            let st1 := if info.modTime ≠ rec.modTime
              then (fun q => if q = p then some (recFromStat p info) else st.1 q,
                st.2)
              else st
            match getFI p with
            | none => st1
            | some fi => (st1.1, st1.2 ++ [(p, fi)])

/-- `Indexer.Search` (indexer.go:169-219): iterate the name index, keep the
names containing the lower-cased keyword, and run every stored path through
`searchPathStep`, threading the mutable `fileIndices` map. -/
def indexerSearch {β : Type} (nameIdx : List (String × List String))
    (fi0 : String → Option FileIndexRec) (stat : String → Option StatRec)
    (getFI : String → Option β) (keyword : String) : List (String × β) :=
  (nameIdx.foldl (fun st np =>
      if strContains (goToLower np.1.toList) (goToLower keyword.toList)
      then np.2.foldl (searchPathStep stat getFI) st
      else st)
    (fi0, [])).2

/-- The invariant threaded through `Search`'s iteration: every result path
re-stats successfully and its originally indexed record is a file; the map
differs from the original only at such paths. -/
def SearchInv {β : Type} (fi0 : String → Option FileIndexRec)
    (stat : String → Option StatRec)
    (st : (String → Option FileIndexRec) × List (String × β)) : Prop :=
  (∀ p r, (p, r) ∈ st.2 → (stat p).isSome = true ∧
      ∃ r0, fi0 p = some r0 ∧ r0.isDir = false) ∧
  ∀ p, st.1 p = fi0 p ∨ ((stat p).isSome = true ∧
      ∃ r0, fi0 p = some r0 ∧ r0.isDir = false)

theorem searchPathStep_inv {β : Type} (fi0 : String → Option FileIndexRec)
    (stat : String → Option StatRec) (getFI : String → Option β)
    (st : (String → Option FileIndexRec) × List (String × β)) (p : String)
    (hJ : SearchInv fi0 stat st) :
    SearchInv fi0 stat (searchPathStep stat getFI st p) := by
  unfold searchPathStep
  split
  · exact hJ
  next rec hrec =>
    split_ifs with hdir
    · exact hJ
    split
    · exact hJ
    next info hstat =>
      have hgood : (stat p).isSome = true ∧
          ∃ r0, fi0 p = some r0 ∧ r0.isDir = false := by
        rcases hJ.2 p with heq | hg
        · refine ⟨by rw [hstat]; rfl, rec, ?_, ?_⟩
          · rw [← heq, hrec]
          · rcases Bool.eq_false_or_eq_true rec.isDir with ht | hf
            · exact absurd ht hdir
            · exact hf
        · exact hg
      have hst1 : SearchInv fi0 stat
          (if info.modTime ≠ rec.modTime
            then (fun q => if q = p then some (recFromStat p info) else st.1 q,
              st.2)
            else st) := by
        split_ifs with hmt
        · refine ⟨hJ.1, ?_⟩
          intro q
          by_cases hqp : q = p
          · exact Or.inr (hqp ▸ hgood)
          · simp only [if_neg hqp]
            exact hJ.2 q
        · exact hJ
      dsimp only
      split
      · exact hst1
      next fi hfi =>
        refine ⟨?_, hst1.2⟩
        intro q r hqr
        rcases List.mem_append.mp hqr with h' | h'
        · exact hst1.1 q r h'
        · rw [List.mem_singleton, Prod.mk.injEq] at h'
          exact h'.1 ▸ hgood

theorem searchPaths_inv {β : Type} (fi0 : String → Option FileIndexRec)
    (stat : String → Option StatRec) (getFI : String → Option β) :
    ∀ (paths : List String)
      (st : (String → Option FileIndexRec) × List (String × β)),
      SearchInv fi0 stat st →
      SearchInv fi0 stat (paths.foldl (searchPathStep stat getFI) st) := by
  intro paths
  induction paths with
  | nil => intro st h; exact h
  | cons p ps ih =>
      intro st h
      exact ih _ (searchPathStep_inv fi0 stat getFI st p h)

/-- C10: every entry `Indexer.Search` returns re-stats successfully at
query time and was indexed as a non-directory; stored directory records and
stale paths never reach the result mapping. -/
theorem c10_search_only_live_files {β : Type}
    (nameIdx : List (String × List String))
    (fi0 : String → Option FileIndexRec) (stat : String → Option StatRec)
    (getFI : String → Option β) (keyword : String) :
    ∀ p r, (p, r) ∈ indexerSearch nameIdx fi0 stat getFI keyword →
      (stat p).isSome = true ∧ ∃ r0, fi0 p = some r0 ∧ r0.isDir = false := by
  have hfold : ∀ (l : List (String × List String))
      (st : (String → Option FileIndexRec) × List (String × β)),
      SearchInv fi0 stat st →
      SearchInv fi0 stat (l.foldl (fun st np =>
        if strContains (goToLower np.1.toList) (goToLower keyword.toList)
        then np.2.foldl (searchPathStep stat getFI) st
        else st) st) := by
    intro l
    induction l with
    | nil => intro st h; exact h
    | cons np l' ih =>
        intro st h
        refine ih _ ?_
        show SearchInv fi0 stat
          (if strContains (goToLower np.1.toList) (goToLower keyword.toList) = true
            then np.2.foldl (searchPathStep stat getFI) st else st)
        split_ifs with hname
        · exact searchPaths_inv fi0 stat getFI np.2 st h
        · exact h
  intro p r hmem
  have hinv : SearchInv fi0 stat (β := β) (fi0, []) :=
    ⟨fun q r h => absurd h (List.not_mem_nil _), fun q => Or.inl rfl⟩
  exact (hfold nameIdx (fi0, []) hinv).1 p r hmem

/-- Witness for C10: a one-entry index whose file still exists on disk;
the query returns it, and the theorem certifies stat success and the
non-directory record. -/
theorem c10_search_only_live_files_witness :
    ((fun p => if p = "/a/f.txt" then some (⟨"f.txt", 1, 0, false⟩ : StatRec)
        else none) "/a/f.txt").isSome = true :=
  (c10_search_only_live_files
      [("f.txt", ["/a/f.txt"])]
      (fun p => if p = "/a/f.txt"
        then some (⟨"/a/f.txt", "f.txt", 1, 0, false⟩ : FileIndexRec) else none)
      (fun p => if p = "/a/f.txt" then some (⟨"f.txt", 1, 0, false⟩ : StatRec)
        else none)
      (fun _ => some 0) "f"
      "/a/f.txt" 0 (by decide)).1

end FileFinder
